import Mathlib

/-
Verification of the trashcan versioner (lib/versioner/trashcan.go).

The module moves files into a hidden `.stversions` directory preserving their
relative path (`Trashcan.Archive`), and periodically purges archived files
older than `cleanoutDays` days, removing directories left without surviving
files (`Trashcan.cleanoutArchive`), driven by a scheduler (`Serve`/`Stop`).

The filesystem is embedded as a finite tree of named entries.  Paths are lists
of path components (the Go code manipulates slash-joined strings via
`filepath.Join`/`filepath.Dir`; on clean relative paths those are exactly
component-list append and `dropLast`).  Children lists are kept in walk order;
`fs.Walk` visits a directory before its entries, all entries of a directory
contiguously.  Times are integers (Go nanoseconds); `time.Time.Before` is `<`.

The filesystem collaborator can fail on any call; the claims under proof need
failure injection only for the rename and the Chtimes steps of `Archive`, so
`Faults` carries one flag per such call site.  The `Hide` call and the atime
argument of `Chtimes` have no observable effect on any claim and are not
modelled.
-/

namespace Trash

abbrev Path := List String

/-- A filesystem node: a regular file with content and modification time, a
symbolic link, or a directory with named children (in walk order). -/
inductive FTree where
  | file (content : String) (mtime : Int)
  | symlink (mtime : Int)
  | dir (children : List (String × FTree))

/-- `info.IsSymlink()` of the node's `Lstat` info. -/
def FTree.isSymlink : FTree → Bool
  | .symlink _ => true
  | _ => false

/-- `info.IsDir()` of the node's stat info. -/
def FTree.isDir : FTree → Bool
  | .dir _ => true
  | _ => false

/-- `info.ModTime()`; only meaningful for non-directories here. -/
def FTree.mtimeOf : FTree → Int
  | .file _ m => m
  | .symlink m => m
  | .dir _ => 0

/-- `os.Remove` succeeds on files, symlinks and empty directories only. -/
def FTree.isRemovable : FTree → Bool
  | .dir cs => cs.isEmpty
  | _ => true

mutual

/-- Resolve a path in the tree; `none` is the `IsNotExist` stat error.  Used
for both `Lstat` and `Stat` (the one `Stat` call in `Archive` is on the
versions directory, where link following makes no difference). -/
def FTree.lookup : FTree → Path → Option FTree
  | t, [] => some t
  | .dir cs, n :: p => FTree.lookupIn cs n p
  | _, _ :: _ => none

def FTree.lookupIn : List (String × FTree) → String → Path → Option FTree
  | [], _, _ => none
  | (k, c) :: rest, n, p => if k = n then FTree.lookup c p else FTree.lookupIn rest n p

end

/-- Drop every child entry named `n` (directories have unique names, so this
is removal of the one entry of that name). -/
def dropKey (n : String) : List (String × FTree) → List (String × FTree)
  | [] => []
  | (k, c) :: rest => if k = n then dropKey n rest else (k, c) :: dropKey n rest

/-- The chain of fresh empty directories `MkdirAll` creates below the deepest
existing ancestor. -/
def mkChain : Path → FTree
  | [] => FTree.dir []
  | n :: p => FTree.dir [(n, mkChain p)]

mutual

/-- `MkdirAll`: create the directory and all missing parents; fails (`none`)
when a path component exists as a non-directory, succeeds without change when
the directory already exists. -/
def FTree.mkdirAll : FTree → Path → Option FTree
  | FTree.dir cs, [] => some (FTree.dir cs)
  | FTree.dir cs, n :: p => (FTree.mkdirAllIn cs n p).map FTree.dir
  | _, _ => none

def FTree.mkdirAllIn : List (String × FTree) → String → Path → Option (List (String × FTree))
  | [], n, p => some [(n, mkChain p)]
  | (k, c) :: rest, n, p =>
      if k = n then (FTree.mkdirAll c p).map (fun c' => (k, c') :: rest)
      else (FTree.mkdirAllIn rest n p).map (fun rest' => (k, c) :: rest')

end

mutual

/-- Place `node` at `dst`, overwriting whatever is there; fails when a parent
of `dst` is missing or not a directory.  This is the destination half of the
rename: rename does not create directories. -/
def FTree.setAt : FTree → Path → FTree → Option FTree
  | _, [], node => some node
  | FTree.dir cs, n :: p, node => (FTree.setAtIn cs n p node).map FTree.dir
  | _, _ :: _, _ => none

def FTree.setAtIn : List (String × FTree) → String → Path → FTree → Option (List (String × FTree))
  | [], n, [], node => some [(n, node)]
  | [], _, _ :: _, _ => none
  | (k, c) :: rest, n, p, node =>
      if k = n then (FTree.setAt c p node).map (fun c' => (k, c') :: rest)
      else (FTree.setAtIn rest n p node).map (fun rest' => (k, c) :: rest')

end

mutual

/-- Remove the entry at a path (the source half of the rename); fails when the
path does not exist. -/
def FTree.removePath : FTree → Path → Option FTree
  | _, [] => none
  | FTree.dir cs, n :: p => (FTree.removePathIn cs n p).map FTree.dir
  | _, _ :: _ => none

def FTree.removePathIn : List (String × FTree) → String → Path → Option (List (String × FTree))
  | [], _, _ => none
  | (k, c) :: rest, n, [] =>
      if k = n then some (dropKey n rest)
      else (FTree.removePathIn rest n []).map (fun rest' => (k, c) :: rest')
  | (k, c) :: rest, n, p :: ps =>
      if k = n then (FTree.removePath c (p :: ps)).map (fun c' => (k, c') :: rest)
      else (FTree.removePathIn rest n (p :: ps)).map (fun rest' => (k, c) :: rest')

end

mutual

/-- `filesystem.Remove(path)` with the error ignored, as the sweep does:
removes the entry when it is a file, a symlink or an empty directory, and
leaves the tree unchanged when removal fails (missing path, non-empty
directory). -/
def FTree.removeBE : FTree → Path → FTree
  | t, [] => t
  | FTree.dir cs, n :: p => FTree.dir (FTree.removeBEIn cs n p)
  | t, _ :: _ => t

def FTree.removeBEIn : List (String × FTree) → String → Path → List (String × FTree)
  | [], _, _ => []
  | (k, c) :: rest, n, [] =>
      if k = n then (if c.isRemovable then dropKey n rest else (k, c) :: rest)
      else (k, c) :: FTree.removeBEIn rest n []
  | (k, c) :: rest, n, p :: ps =>
      if k = n then (k, FTree.removeBE c (p :: ps)) :: rest
      else (k, c) :: FTree.removeBEIn rest n (p :: ps)

end

mutual

/-- `filesystem.Chtimes(path, now, now)` restricted to its observable effect:
set the modification time of the node at `path`; no effect when the path is
missing.  Access times are not modelled. -/
def FTree.chtimes : FTree → Path → Int → FTree
  | FTree.file c _, [], tm => FTree.file c tm
  | FTree.symlink _, [], tm => FTree.symlink tm
  | t, [], _ => t
  | FTree.dir cs, n :: p, tm => FTree.dir (FTree.chtimesIn cs n p tm)
  | t, _ :: _, _ => t

def FTree.chtimesIn : List (String × FTree) → String → Path → Int → List (String × FTree)
  | [], _, _, _ => []
  | (k, c) :: rest, n, p, tm =>
      if k = n then (k, FTree.chtimes c p tm) :: rest else (k, c) :: FTree.chtimesIn rest n p tm

end

/-- Modelled from the spec: `osutil.Rename` (not under src/) performs an
atomic move of the source to the destination, overwriting whatever was
previously at the destination; on failure the tree is unchanged. -/
def FTree.rename (fs : FTree) (src dst : Path) : Option FTree :=
  match fs.lookup src with
  | none => none
  | some node => (fs.removePath src).bind (fun fs' => fs'.setAt dst node)

/-- Per-call-site injected I/O failures of the filesystem collaborator, for
the two calls of `Archive` whose failure behaviour the claims talk about. -/
structure Faults where
  renameFault : Bool
  chtimesFault : Bool

/-- Outcome of `Archive`: the returned error status together with the
filesystem as left behind. -/
inductive ArchiveResult where
  | ok (fs : FTree)
  | err (fs : FTree)
  | panicked (fs : FTree)

def ArchiveResult.isOk : ArchiveResult → Bool
  | .ok _ => true
  | _ => false

/-- The well-known hidden versions directory `.stversions`, as a component
path. -/
def versionsDir : Path := [".stversions"]

/-- `Trashcan.Archive(filePath)`, stepwise from trashcan.go:46-90: Lstat (not
exists is success, symlink panics), ensure the versions directory, MkdirAll
the destination's parent, rename, then best-effort Chtimes with the current
time (its error is ignored). -/
def Archive (fs : FTree) (filePath : Path) (now : Int) (flt : Faults) : ArchiveResult :=
  match fs.lookup filePath with
  | none => .ok fs
  | some info =>
    if info.isSymlink then .panicked fs
    else
      match (match fs.lookup versionsDir with
             | some _ => some fs
             | none => fs.mkdirAll versionsDir) with
      | none => .err fs
      | some fs1 =>
        match fs1.mkdirAll (versionsDir ++ filePath).dropLast with
        | none => .err fs1
        | some fs2 =>
          if flt.renameFault then .err fs2
          else
            match fs2.rename filePath (versionsDir ++ filePath) with
            | none => .err fs2
            | some fs3 =>
              if flt.chtimesFault then .ok fs3
              else .ok (fs3.chtimes (versionsDir ++ filePath) now)

/-- One entry yielded by `fs.Walk`: the visited path with its info, reduced to
what the sweep callback inspects (`IsDir`, `ModTime`). -/
inductive WalkEvent where
  | dirEv (path : Path)
  | fileEv (path : Path) (mtime : Int)

mutual

/-- The sequence of callback invocations of `fs.Walk` on a subtree: the node
itself first, then, for a directory, the entries in order, each subtree
contiguously (pre-order). -/
def FTree.walkEvents : FTree → Path → List WalkEvent
  | FTree.dir cs, pre => WalkEvent.dirEv pre :: FTree.walkEventsIn cs pre
  | FTree.file _ m, pre => [WalkEvent.fileEv pre m]
  | FTree.symlink m, pre => [WalkEvent.fileEv pre m]

def FTree.walkEventsIn : List (String × FTree) → Path → List WalkEvent
  | [], _ => []
  | (k, c) :: rest, pre => FTree.walkEvents c (pre ++ [k]) ++ FTree.walkEventsIn rest pre

end

/-- The mutable state of the sweep callback: the filesystem as mutated so far,
plus the `currentDir`/`filesInDir` locals of `cleanoutArchive` (`currentDir`
starts as the empty string, modelled as `none`). -/
structure SweepState where
  fs : FTree
  currentDir : Option Path
  filesInDir : Nat

/-- One callback invocation of `cleanoutArchive`'s `walkFn` (trashcan.go
lines 133-161): on a directory, first try to remove the previous tracked
directory if it kept no files, then make the new directory current; on a
file, remove it when its mtime is strictly before the cutoff, otherwise count
it as a survivor of the current directory. -/
def sweepStep (cutoff : Int) (st : SweepState) : WalkEvent → SweepState
  | .dirEv p =>
      { fs :=
          match st.currentDir with
          | some d => if st.filesInDir = 0 then st.fs.removeBE d else st.fs
          | none => st.fs
        currentDir := some p
        filesInDir := 0 }
  | .fileEv p m =>
      if m < cutoff then { st with fs := st.fs.removeBE p }
      else { st with filesInDir := st.filesInDir + 1 }

def sweepFold (cutoff : Int) : SweepState → List WalkEvent → SweepState
  | st, [] => st
  | st, ev :: evs => sweepFold cutoff (sweepStep cutoff st ev) evs

/-- `time.Hour` in nanoseconds. -/
def hourNs : Int := 3600 * 1000000000

/-- The retention cutoff of one sweep:
`time.Now().Add(time.Duration(-24*t.cleanoutDays) * time.Hour)`. -/
def cutoffOf (now : Int) (cleanoutDays : Int) : Int := now - 24 * cleanoutDays * hourNs

/-- `Trashcan.cleanoutArchive`: no-op when the versions directory does not
exist; otherwise walk it with `sweepStep`, then re-check the last tracked
directory.  Returns the filesystem after the sweep. -/
def cleanoutArchive (now : Int) (cleanoutDays : Int) (fs : FTree) : FTree :=
  match fs.lookup versionsDir with
  | none => fs
  | some vt =>
    let st := sweepFold (cutoffOf now cleanoutDays) ⟨fs, none, 0⟩ (vt.walkEvents versionsDir)
    match st.currentDir with
    | some d => if st.filesInDir = 0 then st.fs.removeBE d else st.fs
    | none => st.fs

/-- Decimal digit run of `strconv.Atoi`, with accumulator. -/
def digitsAcc : Nat → List Char → Option Nat
  | acc, [] => some acc
  | acc, ch :: cs => if ch.isDigit then digitsAcc (acc * 10 + (ch.toNat - 48)) cs else none

def digitsVal : List Char → Option Nat
  | [] => none
  | ch :: cs => digitsAcc 0 (ch :: cs)

/-- Modelled from the spec: `strconv.Atoi` (standard library collaborator)
parses an optional sign followed by at least one decimal digit; anything else
is an error (`none`).  The int64 range check is immaterial to the claims. -/
def atoi (s : String) : Option Int :=
  match s.toList with
  | '-' :: cs => (digitsVal cs).map (fun n => -(n : Int))
  | '+' :: cs => (digitsVal cs).map (fun n => (n : Int))
  | cs => (digitsVal cs).map (fun n => (n : Int))

/-- Go map indexing `params[key]`: the zero value `""` when the key is
absent. -/
def paramGet (params : List (String × String)) (key : String) : String :=
  match params.find? (fun e => e.1 == key) with
  | some e => e.2
  | none => ""

/-- The versioner instance: its configured retention and the state of its
single-use stop channel (`true` once closed).  The filesystem handle is passed
explicitly to the operations; the folder id is only used for diagnostics. -/
structure Trashcan where
  cleanoutDays : Int
  stopClosed : Bool

/-- `NewTrashcan`: parse `params["cleanoutDays"]`, defaulting to 0 on any
parse error or absent entry; the stop channel starts open.  Construction
always succeeds. -/
def NewTrashcan (params : List (String × String)) : Trashcan :=
  { cleanoutDays := (atoi (paramGet params "cleanoutDays")).getD 0
    stopClosed := false }

/-- One timer expiry of `Serve`'s loop: run the sweep only when
`cleanoutDays > 0`; sweep errors are logged and ignored. -/
def serveTick (t : Trashcan) (now : Int) (fs : FTree) : FTree :=
  if t.cleanoutDays > 0 then cleanoutArchive now t.cleanoutDays fs else fs

/-- Repeated timer expiries of the running scheduler. -/
def serveTicks (t : Trashcan) : List Int → FTree → FTree
  | [], fs => fs
  | now :: rest, fs => serveTicks t rest (serveTick t now fs)

/-- `Trashcan.Stop` is `close(t.stop)`: closing an open channel closes it;
closing an already-closed channel panics (`none`), per Go channel semantics.
It touches nothing but the channel. -/
def Trashcan.Stop (t : Trashcan) : Option Trashcan :=
  if t.stopClosed then none else some { t with stopClosed := true }

/-- No entry of the children list is named `n`. -/
def keyAbsent (n : String) : List (String × FTree) → Bool
  | [] => true
  | (k, _) :: rest => if k = n then false else keyAbsent n rest

mutual

/-- Well-formedness of a filesystem tree: sibling names are distinct, as they
are in a real directory. -/
def FTree.wf : FTree → Bool
  | .file _ _ => true
  | .symlink _ => true
  | .dir cs => FTree.wfIn cs

def FTree.wfIn : List (String × FTree) → Bool
  | [] => true
  | (k, c) :: rest => (keyAbsent k rest && FTree.wf c) && FTree.wfIn rest

end

end Trash

namespace Trash

theorem lookup_append : ∀ (a : Path) (t : FTree) (b : Path),
    FTree.lookup t (a ++ b) = (FTree.lookup t a).bind (fun u => FTree.lookup u b) := by
  intro a
  induction a with
  | nil => intro t b; cases t <;> rfl
  | cons n a ih =>
    intro t b
    cases t with
    | file c m => rfl
    | symlink m => rfl
    | dir cs =>
      simp only [List.cons_append, FTree.lookup]
      induction cs with
      | nil => simp [FTree.lookupIn]
      | cons e rest ihcs =>
        obtain ⟨k, c⟩ := e
        by_cases hk : k = n
        · simp only [FTree.lookupIn, if_pos hk]
          exact ih c b
        · simp only [FTree.lookupIn, if_neg hk]
          exact ihcs

theorem lookupIn_dropKey_self (n : String) (p : Path) :
    ∀ cs : List (String × FTree), FTree.lookupIn (dropKey n cs) n p = none := by
  intro cs
  induction cs with
  | nil => rfl
  | cons e rest ih =>
    obtain ⟨k, c⟩ := e
    by_cases h : k = n <;> simp [dropKey, h, FTree.lookupIn, ih]

theorem lookupIn_dropKey_other (n m : String) (p : Path) (hnm : m ≠ n) :
    ∀ cs : List (String × FTree), FTree.lookupIn (dropKey n cs) m p = FTree.lookupIn cs m p := by
  intro cs
  induction cs with
  | nil => rfl
  | cons e rest ih =>
    obtain ⟨k, c⟩ := e
    by_cases hkn : k = n
    · subst hkn
      simp [dropKey, FTree.lookupIn, Ne.symm hnm, ih]
    · by_cases hkm : k = m <;> simp [dropKey, hkn, FTree.lookupIn, hkm, hnm, ih]

theorem lookupIn_some_not_absent {cs : List (String × FTree)} {n : String} {p : Path} {u : FTree}
    (h : FTree.lookupIn cs n p = some u) : keyAbsent n cs = false := by
  induction cs with
  | nil => simp [FTree.lookupIn] at h
  | cons e rest ih =>
    obtain ⟨k, c⟩ := e
    by_cases hk : k = n <;> simp [FTree.lookupIn, hk, keyAbsent] at h ⊢
    exact ih h

theorem lookup_chtimes_none : ∀ (q : Path) (t : FTree) (p : Path) (tm : Int),
    FTree.lookup t p = none → FTree.lookup (FTree.chtimes t q tm) p = none := by
  intro q
  induction q with
  | nil =>
    intro t p tm h
    cases t <;> cases p <;> simp_all [FTree.lookup, FTree.chtimes]
  | cons m q ih =>
    intro t p tm h
    cases t with
    | file c mt => exact h
    | symlink mt => exact h
    | dir cs =>
      cases p with
      | nil => simp [FTree.lookup] at h
      | cons n p =>
        simp only [FTree.lookup, FTree.chtimes] at h ⊢
        induction cs with
        | nil => rfl
        | cons e rest ihcs =>
          obtain ⟨k, c⟩ := e
          by_cases hkm : k = m
          · by_cases hkn : k = n
            · simp only [FTree.chtimesIn, if_pos hkm, FTree.lookupIn, if_pos hkn] at h ⊢
              exact ih c p tm h
            · simp only [FTree.chtimesIn, if_pos hkm, FTree.lookupIn, if_neg hkn] at h ⊢
              exact h
          · by_cases hkn : k = n
            · simp only [FTree.chtimesIn, if_neg hkm, FTree.lookupIn, if_pos hkn] at h ⊢
              exact h
            · simp only [FTree.chtimesIn, if_neg hkm, FTree.lookupIn, if_neg hkn] at h ⊢
              exact ihcs h

theorem lookup_chtimes_self : ∀ (p : Path) (t : FTree) (c : String) (m tm : Int),
    FTree.lookup t p = some (.file c m) →
    FTree.lookup (FTree.chtimes t p tm) p = some (.file c tm) := by
  intro p
  induction p with
  | nil =>
    intro t c m tm h
    cases t <;> simp_all [FTree.lookup, FTree.chtimes]
  | cons n p ih =>
    intro t c m tm h
    cases t with
    | file c0 mt => simp [FTree.lookup] at h
    | symlink mt => simp [FTree.lookup] at h
    | dir cs =>
      simp only [FTree.lookup, FTree.chtimes] at h ⊢
      induction cs with
      | nil => simp [FTree.lookupIn] at h
      | cons e rest ihcs =>
        obtain ⟨k, c0⟩ := e
        by_cases hk : k = n
        · simp only [FTree.chtimesIn, if_pos hk, FTree.lookupIn] at h ⊢
          exact ih c0 c m tm h
        · simp only [FTree.chtimesIn, if_neg hk, FTree.lookupIn] at h ⊢
          exact ihcs h

end Trash

namespace Trash

theorem lookup_mkChain_nil : ∀ (q r : Path), r ≠ [] → FTree.lookup (mkChain q) (q ++ r) = none := by
  intro q
  induction q with
  | nil =>
    intro r hr
    cases r with
    | nil => exact absurd rfl hr
    | cons x xs => rfl
  | cons n q ih =>
    intro r hr
    simp only [mkChain, List.cons_append, FTree.lookup, FTree.lookupIn, if_pos rfl]
    exact ih r hr

/-- `MkdirAll` leaves every existing non-directory entry in place. -/
theorem lookup_mkdirAll_file : ∀ (q : Path) (t t' : FTree) (p : Path) (u : FTree),
    FTree.mkdirAll t q = some t' → FTree.lookup t p = some u → u.isDir = false →
    FTree.lookup t' p = some u := by
  intro q
  induction q with
  | nil =>
    intro t t' p u hmk hlk hnd
    cases t <;> simp [FTree.mkdirAll] at hmk
    subst hmk
    exact hlk
  | cons n q ih =>
    intro t t' p u hmk hlk hnd
    cases t with
    | file c mt => simp [FTree.mkdirAll] at hmk
    | symlink mt => simp [FTree.mkdirAll] at hmk
    | dir cs =>
      simp only [FTree.mkdirAll, Option.map_eq_some'] at hmk
      obtain ⟨cs', hcs', rfl⟩ := hmk
      cases p with
      | nil =>
        simp only [FTree.lookup, Option.some_inj] at hlk
        subst hlk
        simp [FTree.isDir] at hnd
      | cons m p =>
        simp only [FTree.lookup] at hlk ⊢
        induction cs generalizing cs' with
        | nil => simp [FTree.lookupIn] at hlk
        | cons e rest ihcs =>
          obtain ⟨k, c⟩ := e
          by_cases hkn : k = n
          · simp only [FTree.mkdirAllIn, if_pos hkn, Option.map_eq_some'] at hcs'
            obtain ⟨c', hc', rfl⟩ := hcs'
            by_cases hkm : k = m
            · simp only [FTree.lookupIn, if_pos hkm] at hlk ⊢
              exact ih c c' p u hc' hlk hnd
            · simp only [FTree.lookupIn, if_neg hkm] at hlk ⊢
              exact hlk
          · simp only [FTree.mkdirAllIn, if_neg hkn, Option.map_eq_some'] at hcs'
            obtain ⟨rest', hrest', rfl⟩ := hcs'
            by_cases hkm : k = m
            · simp only [FTree.lookupIn, if_pos hkm] at hlk ⊢
              exact hlk
            · simp only [FTree.lookupIn, if_neg hkm] at hlk ⊢
              exact ihcs rest' hrest' hlk

end Trash

namespace Trash

/-- `MkdirAll q` does not change anything strictly below `q`. -/
theorem lookup_mkdirAll_extend : ∀ (q : Path) (t t' : FTree) (r : Path),
    FTree.mkdirAll t q = some t' → r ≠ [] →
    FTree.lookup t' (q ++ r) = FTree.lookup t (q ++ r) := by
  intro q
  induction q with
  | nil =>
    intro t t' r hmk hr
    cases t <;> simp [FTree.mkdirAll] at hmk
    subst hmk
    rfl
  | cons n q ih =>
    intro t t' r hmk hr
    cases t with
    | file c mt => simp [FTree.mkdirAll] at hmk
    | symlink mt => simp [FTree.mkdirAll] at hmk
    | dir cs =>
      simp only [FTree.mkdirAll, Option.map_eq_some'] at hmk
      obtain ⟨cs', hcs', rfl⟩ := hmk
      simp only [List.cons_append, FTree.lookup]
      induction cs generalizing cs' with
      | nil =>
        simp only [FTree.mkdirAllIn, Option.some_inj] at hcs'
        subst hcs'
        simp only [FTree.lookupIn, if_pos rfl]
        exact lookup_mkChain_nil q r hr
      | cons e rest ihcs =>
        obtain ⟨k, c⟩ := e
        by_cases hkn : k = n
        · simp only [FTree.mkdirAllIn, if_pos hkn, Option.map_eq_some'] at hcs'
          obtain ⟨c', hc', rfl⟩ := hcs'
          simp only [FTree.lookupIn, if_pos hkn]
          exact ih c c' r hc' hr
        · simp only [FTree.mkdirAllIn, if_neg hkn, Option.map_eq_some'] at hcs'
          obtain ⟨rest', hrest', rfl⟩ := hcs'
          simp only [FTree.lookupIn, if_neg hkn]
          exact ihcs rest' hrest'

theorem lookup_setAt_self : ∀ (dst : Path) (t node t' : FTree),
    FTree.setAt t dst node = some t' → FTree.lookup t' dst = some node := by
  intro dst
  induction dst with
  | nil =>
    intro t node t' hst
    simp only [FTree.setAt, Option.some_inj] at hst
    subst hst
    cases node <;> rfl
  | cons n p ih =>
    intro t node t' hst
    cases t with
    | file c mt => simp [FTree.setAt] at hst
    | symlink mt => simp [FTree.setAt] at hst
    | dir cs =>
      simp only [FTree.setAt, Option.map_eq_some'] at hst
      obtain ⟨cs', hcs', rfl⟩ := hst
      simp only [FTree.lookup]
      induction cs generalizing cs' with
      | nil =>
        cases p with
        | nil =>
          simp only [FTree.setAtIn, Option.some_inj] at hcs'
          subst hcs'
          simp [FTree.lookupIn, FTree.lookup]
        | cons x xs => simp [FTree.setAtIn] at hcs'
      | cons e rest ihcs =>
        obtain ⟨k, c⟩ := e
        by_cases hkn : k = n
        · simp only [FTree.setAtIn, if_pos hkn, Option.map_eq_some'] at hcs'
          obtain ⟨c', hc', rfl⟩ := hcs'
          simp only [FTree.lookupIn, if_pos hkn]
          exact ih c node c' hc'
        · simp only [FTree.setAtIn, if_neg hkn, Option.map_eq_some'] at hcs'
          obtain ⟨rest', hrest', rfl⟩ := hcs'
          simp only [FTree.lookupIn, if_neg hkn]
          exact ihcs rest' hrest'

/-- A rename destination strictly below a missing path cannot be reached. -/
theorem setAt_prefix_none : ∀ (p : Path) (t : FTree) (ext : Path) (node : FTree),
    FTree.lookup t p = none → ext ≠ [] → FTree.setAt t (p ++ ext) node = none := by
  intro p
  induction p with
  | nil => intro t ext node h hext; simp [FTree.lookup] at h
  | cons n p ih =>
    intro t ext node h hext
    cases t with
    | file c mt => rfl
    | symlink mt => rfl
    | dir cs =>
      simp only [FTree.lookup] at h
      simp only [List.cons_append, FTree.setAt, Option.map_eq_none']
      induction cs with
      | nil =>
        have hpe : p ++ ext ≠ [] := fun hc => hext (List.append_eq_nil.mp hc).2
        cases hc : p ++ ext with
        | nil => exact absurd hc hpe
        | cons x xs => rfl
      | cons e rest ihcs =>
        obtain ⟨k, c⟩ := e
        by_cases hkn : k = n
        · simp only [FTree.lookupIn, if_pos hkn] at h
          simp only [FTree.setAtIn, if_pos hkn, Option.map_eq_none']
          exact ih c ext node h hext
        · simp only [FTree.lookupIn, if_neg hkn] at h
          simp only [FTree.setAtIn, if_neg hkn, Option.map_eq_none']
          exact ihcs h

/-- `setAt dst` cannot create an entry at an unrelated missing path. -/
theorem lookup_setAt_none : ∀ (dst : Path) (t node t' : FTree) (p : Path),
    FTree.setAt t dst node = some t' → FTree.lookup t p = none →
    (∀ ext, p ++ ext ≠ dst) → (∀ ext, dst ++ ext ≠ p) →
    FTree.lookup t' p = none := by
  intro dst
  induction dst with
  | nil =>
    intro t node t' p hst hnone h1 h2
    exfalso
    exact h2 p (by simp)
  | cons n q ih =>
    intro t node t' p hst hnone h1 h2
    cases t with
    | file c mt => simp [FTree.setAt] at hst
    | symlink mt => simp [FTree.setAt] at hst
    | dir cs =>
      simp only [FTree.setAt, Option.map_eq_some'] at hst
      obtain ⟨cs', hcs', rfl⟩ := hst
      cases p with
      | nil => simp [FTree.lookup] at hnone
      | cons m p' =>
        simp only [FTree.lookup] at hnone ⊢
        induction cs generalizing cs' with
        | nil =>
          cases q with
          | nil =>
            simp only [FTree.setAtIn, Option.some_inj] at hcs'
            subst hcs'
            by_cases hmn : m = n
            · subst hmn
              cases p' with
              | nil =>
                exfalso
                exact h1 [] (by simp)
              | cons y ys =>
                exfalso
                exact h2 (y :: ys) (by simp)
            · have hnm : ¬ n = m := fun hc => hmn hc.symm
              simp [FTree.lookupIn, hnm]
          | cons x xs => simp [FTree.setAtIn] at hcs'
        | cons e rest ihcs =>
          obtain ⟨k, c⟩ := e
          by_cases hkn : k = n
          · simp only [FTree.setAtIn, if_pos hkn, Option.map_eq_some'] at hcs'
            obtain ⟨c', hc', rfl⟩ := hcs'
            by_cases hkm : k = m
            · simp only [FTree.lookupIn, if_pos hkm] at hnone ⊢
              refine ih c node c' p' hc' hnone ?_ ?_
              · intro ext hc2
                refine h1 ext ?_
                rw [List.cons_append, hc2, ← hkm, hkn]
              · intro ext hc2
                refine h2 ext ?_
                rw [List.cons_append, hc2, ← hkn, hkm]
            · simp only [FTree.lookupIn, if_neg hkm] at hnone ⊢
              exact hnone
          · simp only [FTree.setAtIn, if_neg hkn, Option.map_eq_some'] at hcs'
            obtain ⟨rest', hrest', rfl⟩ := hcs'
            by_cases hkm : k = m
            · simp only [FTree.lookupIn, if_pos hkm] at hnone ⊢
              exact hnone
            · simp only [FTree.lookupIn, if_neg hkm] at hnone ⊢
              exact ihcs rest' hrest' hnone

theorem lookup_removePath_self : ∀ (p : Path) (t t' : FTree),
    FTree.removePath t p = some t' → FTree.lookup t' p = none := by
  intro p
  induction p with
  | nil => intro t t' h; simp [FTree.removePath] at h
  | cons n p ih =>
    intro t t' h
    cases t with
    | file c mt => simp [FTree.removePath] at h
    | symlink mt => simp [FTree.removePath] at h
    | dir cs =>
      simp only [FTree.removePath, Option.map_eq_some'] at h
      obtain ⟨cs', hcs', rfl⟩ := h
      simp only [FTree.lookup]
      induction cs generalizing cs' with
      | nil => simp [FTree.removePathIn] at hcs'
      | cons e rest ihcs =>
        obtain ⟨k, c⟩ := e
        cases p with
        | nil =>
          by_cases hkn : k = n
          · simp only [FTree.removePathIn, if_pos hkn, Option.some_inj] at hcs'
            subst hcs'
            exact lookupIn_dropKey_self n [] rest
          · simp only [FTree.removePathIn, if_neg hkn, Option.map_eq_some'] at hcs'
            obtain ⟨rest', hrest', rfl⟩ := hcs'
            simp only [FTree.lookupIn, if_neg hkn]
            exact ihcs rest' hrest'
        | cons x xs =>
          by_cases hkn : k = n
          · simp only [FTree.removePathIn, if_pos hkn, Option.map_eq_some'] at hcs'
            obtain ⟨c', hc', rfl⟩ := hcs'
            simp only [FTree.lookupIn, if_pos hkn]
            exact ih c c' hc'
          · simp only [FTree.removePathIn, if_neg hkn, Option.map_eq_some'] at hcs'
            obtain ⟨rest', hrest', rfl⟩ := hcs'
            simp only [FTree.lookupIn, if_neg hkn]
            exact ihcs rest' hrest'

end Trash

namespace Trash

/-- Best-effort Remove of another path never touches an existing file. -/
theorem lookup_removeBE_other : ∀ (q : Path) (t : FTree) (p : Path) (c : String) (m : Int),
    FTree.lookup t p = some (.file c m) → q ≠ p →
    FTree.lookup (FTree.removeBE t q) p = some (.file c m) := by
  intro q
  induction q with
  | nil => intro t p c m h hq; cases t <;> exact h
  | cons n qs ih =>
    intro t p c m h hq
    cases t with
    | file c0 mt => exact h
    | symlink mt => exact h
    | dir cs =>
      cases p with
      | nil => simp [FTree.lookup] at h
      | cons m' ps =>
        simp only [FTree.lookup, FTree.removeBE] at h ⊢
        induction cs with
        | nil => simp [FTree.lookupIn] at h
        | cons e rest ihcs =>
          obtain ⟨k, c0⟩ := e
          cases qs with
          | nil =>
            by_cases hkn : k = n
            · by_cases hrem : c0.isRemovable = true
              · simp only [FTree.removeBEIn, if_pos hkn, hrem, if_pos]
                by_cases hkm : k = m'
                · simp only [FTree.lookupIn, if_pos hkm] at h
                  cases ps with
                  | nil =>
                    exfalso
                    exact hq (by simp [hkn.symm.trans hkm])
                  | cons y ys =>
                    cases c0 with
                    | file cc mm => simp [FTree.lookup] at h
                    | symlink mm => simp [FTree.lookup] at h
                    | dir cs0 =>
                      cases cs0 with
                      | nil => simp [FTree.lookup, FTree.lookupIn] at h
                      | cons e0 r0 => simp [FTree.isRemovable] at hrem
                · simp only [FTree.lookupIn, if_neg hkm] at h
                  have hmn : m' ≠ n := fun hc => hkm (hkn.trans hc.symm)
                  rw [lookupIn_dropKey_other n m' ps hmn rest]
                  exact h
              · simp only [FTree.removeBEIn, if_pos hkn, eq_false_of_ne_true hrem, if_neg,
                  Bool.false_eq_true, not_false_eq_true]
                exact h
            · simp only [FTree.removeBEIn, if_neg hkn]
              by_cases hkm : k = m'
              · simp only [FTree.lookupIn, if_pos hkm] at h ⊢
                exact h
              · simp only [FTree.lookupIn, if_neg hkm] at h ⊢
                exact ihcs h
          | cons x xs =>
            by_cases hkn : k = n
            · simp only [FTree.removeBEIn, if_pos hkn]
              by_cases hkm : k = m'
              · simp only [FTree.lookupIn, if_pos hkm] at h ⊢
                refine ih c0 ps c m h ?_
                intro hc
                exact hq (by rw [hc, hkn.symm.trans hkm])
              · simp only [FTree.lookupIn, if_neg hkm] at h ⊢
                exact h
            · simp only [FTree.removeBEIn, if_neg hkn]
              by_cases hkm : k = m'
              · simp only [FTree.lookupIn, if_pos hkm] at h ⊢
                exact h
              · simp only [FTree.lookupIn, if_neg hkm] at h ⊢
                exact ihcs h

/-- Best-effort Remove deletes a removable entry at its own path. -/
theorem lookup_removeBE_self : ∀ (p : Path) (t u : FTree),
    p ≠ [] → FTree.lookup t p = some u → u.isRemovable = true →
    FTree.lookup (FTree.removeBE t p) p = none := by
  intro p
  induction p with
  | nil => intro t u hp; exact absurd rfl hp
  | cons n ps ih =>
    intro t u _ h hrem
    cases t with
    | file c0 mt => simp [FTree.lookup] at h
    | symlink mt => simp [FTree.lookup] at h
    | dir cs =>
      simp only [FTree.lookup, FTree.removeBE] at h ⊢
      induction cs with
      | nil => simp [FTree.lookupIn] at h
      | cons e rest ihcs =>
        obtain ⟨k, c0⟩ := e
        cases ps with
        | nil =>
          by_cases hkn : k = n
          · simp only [FTree.lookupIn, if_pos hkn] at h
            simp only [FTree.lookup, Option.some_inj] at h
            subst h
            simp only [FTree.removeBEIn, if_pos hkn, hrem, if_pos]
            exact lookupIn_dropKey_self n [] rest
          · simp only [FTree.lookupIn, if_neg hkn] at h
            simp only [FTree.removeBEIn, if_neg hkn, FTree.lookupIn, if_neg hkn]
            exact ihcs h
        | cons y ys =>
          by_cases hkn : k = n
          · simp only [FTree.lookupIn, if_pos hkn] at h
            simp only [FTree.removeBEIn, if_pos hkn, FTree.lookupIn, if_pos hkn]
            exact ih c0 u (by simp) h hrem
          · simp only [FTree.lookupIn, if_neg hkn] at h
            simp only [FTree.removeBEIn, if_neg hkn, FTree.lookupIn, if_neg hkn]
            exact ihcs h

/-- Best-effort Remove cannot create an entry at a missing path. -/
theorem lookup_removeBE_none : ∀ (q : Path) (t : FTree) (p : Path),
    FTree.lookup t p = none → FTree.lookup (FTree.removeBE t q) p = none := by
  intro q
  induction q with
  | nil => intro t p h; cases t <;> exact h
  | cons n qs ih =>
    intro t p h
    cases t with
    | file c0 mt => exact h
    | symlink mt => exact h
    | dir cs =>
      cases p with
      | nil => simp [FTree.lookup] at h
      | cons m' ps =>
        simp only [FTree.lookup, FTree.removeBE] at h ⊢
        induction cs with
        | nil => simp [FTree.removeBEIn, FTree.lookupIn]
        | cons e rest ihcs =>
          obtain ⟨k, c0⟩ := e
          cases qs with
          | nil =>
            by_cases hkn : k = n
            · by_cases hrem : c0.isRemovable = true
              · simp only [FTree.removeBEIn, if_pos hkn, hrem, if_pos]
                by_cases hmn : m' = n
                · rw [hmn]
                  exact lookupIn_dropKey_self n ps rest
                · rw [lookupIn_dropKey_other n m' ps hmn rest]
                  have hkm : ¬ k = m' := fun hc => hmn (hc.symm.trans hkn)
                  simpa [FTree.lookupIn, if_neg hkm] using h
              · simp only [FTree.removeBEIn, if_pos hkn, eq_false_of_ne_true hrem, if_neg,
                  Bool.false_eq_true, not_false_eq_true]
                exact h
            · simp only [FTree.removeBEIn, if_neg hkn]
              by_cases hkm : k = m'
              · simp only [FTree.lookupIn, if_pos hkm] at h ⊢
                exact h
              · simp only [FTree.lookupIn, if_neg hkm] at h ⊢
                exact ihcs h
          | cons x xs =>
            by_cases hkn : k = n
            · simp only [FTree.removeBEIn, if_pos hkn]
              by_cases hkm : k = m'
              · simp only [FTree.lookupIn, if_pos hkm] at h ⊢
                exact ih c0 ps h
              · simp only [FTree.lookupIn, if_neg hkm] at h ⊢
                exact h
            · simp only [FTree.removeBEIn, if_neg hkn]
              by_cases hkm : k = m'
              · simp only [FTree.lookupIn, if_pos hkm] at h ⊢
                exact h
              · simp only [FTree.lookupIn, if_neg hkm] at h ⊢
                exact ihcs h

end Trash

namespace Trash

/-- Outcome of a successful Archive of a regular file: the source entry is
gone and the file sits at the archive location, stamped with `now` unless the
Chtimes call failed. -/
theorem archive_ok_file (fs : FTree) (filePath : Path) (now : Int) (flt : Faults)
    (c : String) (m : Int) (fs' : FTree)
    (hfile : fs.lookup filePath = some (.file c m))
    (hok : Archive fs filePath now flt = .ok fs') :
    fs'.lookup filePath = none
    ∧ fs'.lookup (versionsDir ++ filePath)
        = some (.file c (if flt.chtimesFault then m else now)) := by
  unfold Archive at hok
  rw [hfile] at hok
  simp only [FTree.isSymlink, Bool.false_eq_true, if_false] at hok
  have hstep1 : ∃ fs1, (match fs.lookup versionsDir with
      | some _ => some fs
      | none => fs.mkdirAll versionsDir) = some fs1 ∧
      fs1.lookup filePath = some (.file c m) := by
    rcases hvd : fs.lookup versionsDir with _ | vt
    · rcases hmk : fs.mkdirAll versionsDir with _ | fs1
      · rw [hvd, hmk] at hok
        simp at hok
      · exact ⟨fs1, by rfl, lookup_mkdirAll_file versionsDir fs fs1 filePath _ hmk hfile rfl⟩
    · exact ⟨fs, by rfl, hfile⟩
  obtain ⟨fs1, hs1, hfs1⟩ := hstep1
  rw [hs1] at hok
  simp only [] at hok
  rcases hmk2 : fs1.mkdirAll (versionsDir ++ filePath).dropLast with _ | fs2
  · rw [hmk2] at hok
    simp at hok
  · rw [hmk2] at hok
    simp only [] at hok
    have hfs2 : fs2.lookup filePath = some (.file c m) :=
      lookup_mkdirAll_file _ fs1 fs2 filePath _ hmk2 hfs1 rfl
    rcases hrf : flt.renameFault with _ | _
    · rw [hrf] at hok
      simp only [Bool.false_eq_true, if_false] at hok
      rcases hrn : fs2.rename filePath (versionsDir ++ filePath) with _ | fs3
      · rw [hrn] at hok
        simp at hok
      · rw [hrn] at hok
        rw [FTree.rename, hfs2] at hrn
        obtain ⟨fs2r, hrm, hset⟩ := Option.bind_eq_some.mp hrn
        have h3none : fs2r.lookup filePath = none :=
          lookup_removePath_self filePath fs2 fs2r hrm
        have hlen : ∀ ext, (versionsDir ++ filePath) ++ ext ≠ filePath := by
          intro ext hc
          have := congrArg List.length hc
          simp [versionsDir] at this
          omega
        have h4none : fs3.lookup filePath = none := by
          by_cases hpre : ∀ ext, filePath ++ ext ≠ versionsDir ++ filePath
          · exact lookup_setAt_none _ fs2r _ fs3 filePath hset h3none hpre hlen
          · push_neg at hpre
            obtain ⟨ext, hext⟩ := hpre
            have hne : ext ≠ [] := by
              intro hc
              subst hc
              simp only [List.append_nil] at hext
              have := congrArg List.length hext
              simp [versionsDir] at this
            have := setAt_prefix_none filePath fs2r ext (FTree.file c m) h3none hne
            rw [hext, hset] at this
            simp at this
        have h3arch : fs3.lookup (versionsDir ++ filePath) = some (.file c m) :=
          lookup_setAt_self _ fs2r _ fs3 hset
        rcases hcf : flt.chtimesFault with _ | _
        · rw [hcf] at hok
          simp only [Bool.false_eq_true, if_false, ArchiveResult.ok.injEq] at hok
          subst hok
          refine ⟨lookup_chtimes_none _ fs3 filePath now h4none, ?_⟩
          simp only [Bool.false_eq_true, if_false]
          exact lookup_chtimes_self _ fs3 c m now h3arch
        · rw [hcf] at hok
          simp only [if_true, ArchiveResult.ok.injEq] at hok
          subst hok
          exact ⟨h4none, by simp only [if_true]; exact h3arch⟩
    · rw [hrf] at hok
      simp at hok

/-- A failure of the Chtimes step never changes whether Archive succeeds. -/
theorem archive_isOk_chtimes (g : FTree) (p : Path) (n0 : Int) (r b b' : Bool) :
    (Archive g p n0 ⟨r, b⟩).isOk = (Archive g p n0 ⟨r, b'⟩).isOk := by
  unfold Archive
  rcases hl : g.lookup p with _ | info
  · rfl
  · dsimp only
    by_cases hsym : info.isSymlink = true
    · simp [hsym]
    · simp only [Bool.not_eq_true] at hsym
      rw [hsym]
      simp only [Bool.false_eq_true, if_false]
      rcases hs1 : (match g.lookup versionsDir with
          | some _ => some g
          | none => g.mkdirAll versionsDir) with _ | g1
      · rw [hs1]
      · rw [hs1]
        dsimp only
        rcases hmk : g1.mkdirAll (versionsDir ++ p).dropLast with _ | g2
        · rfl
        · dsimp only
          rcases hr : r with _ | _
          · simp only [Bool.false_eq_true, if_false]
            rcases hrn : g2.rename p (versionsDir ++ p) with _ | g3
            · rfl
            · dsimp only
              cases b <;> cases b' <;> rfl
          · rfl

end Trash

namespace Trash

/-- Claim C1: for an existing regular file, a successful Archive removes the
path from the live tree and leaves a file with the original's content at the
mirrored archive location `versionsDir ++ filePath`. -/
theorem archive_moves_file (fs : FTree) (filePath : Path) (now : Int) (flt : Faults)
    (c : String) (m : Int) (fs' : FTree)
    (hfile : fs.lookup filePath = some (.file c m))
    (hok : Archive fs filePath now flt = .ok fs') :
    fs'.lookup filePath = none
    ∧ ∃ m', fs'.lookup (versionsDir ++ filePath) = some (.file c m') := by
  obtain ⟨h1, h2⟩ := archive_ok_file fs filePath now flt c m fs' hfile hok
  exact ⟨h1, _, h2⟩

theorem archive_moves_file_witness :
    FTree.lookup (.dir [("a", .dir [("b.txt", .file "hello" 5)])]) ["a", "b.txt"]
      = some (.file "hello" 5)
    ∧ Archive (.dir [("a", .dir [("b.txt", .file "hello" 5)])]) ["a", "b.txt"] 99 ⟨false, false⟩
      = .ok (.dir [("a", .dir []),
          (".stversions", .dir [("a", .dir [("b.txt", .file "hello" 99)])])])
    ∧ ((FTree.dir [("a", .dir []),
          (".stversions", .dir [("a", .dir [("b.txt", .file "hello" 99)])])]).lookup
            ["a", "b.txt"] = none
       ∧ ∃ m', (FTree.dir [("a", .dir []),
          (".stversions", .dir [("a", .dir [("b.txt", .file "hello" 99)])])]).lookup
            (versionsDir ++ ["a", "b.txt"]) = some (.file "hello" m')) :=
  ⟨rfl, rfl,
    archive_moves_file (.dir [("a", .dir [("b.txt", .file "hello" 5)])]) ["a", "b.txt"] 99
      ⟨false, false⟩ "hello" 5
      (.dir [("a", .dir []),
        (".stversions", .dir [("a", .dir [("b.txt", .file "hello" 99)])])]) rfl rfl⟩

/-- Claim C8: a successful Archive (whose Chtimes call did not fail) stamps
the archived file's modification time with the current time, and a Chtimes
failure is ignored: it never changes whether Archive returns an error. -/
theorem archive_stamps_now (fs : FTree) (filePath : Path) (now : Int) (flt : Faults)
    (c : String) (m : Int) (fs' : FTree)
    (hfile : fs.lookup filePath = some (.file c m))
    (hcf : flt.chtimesFault = false)
    (hok : Archive fs filePath now flt = .ok fs') :
    fs'.lookup (versionsDir ++ filePath) = some (.file c now)
    ∧ ∀ (g : FTree) (p : Path) (n0 : Int) (r b b' : Bool),
        (Archive g p n0 ⟨r, b⟩).isOk = (Archive g p n0 ⟨r, b'⟩).isOk := by
  obtain ⟨h1, h2⟩ := archive_ok_file fs filePath now flt c m fs' hfile hok
  rw [hcf] at h2
  simp only [Bool.false_eq_true, if_false] at h2
  exact ⟨h2, fun g p n0 r b b' => archive_isOk_chtimes g p n0 r b b'⟩

theorem archive_stamps_now_witness :
    FTree.lookup (.dir [("f.txt", .file "data" 5)]) ["f.txt"] = some (.file "data" 5)
    ∧ Archive (.dir [("f.txt", .file "data" 5)]) ["f.txt"] 77 ⟨false, false⟩
      = .ok (.dir [(".stversions", .dir [("f.txt", .file "data" 77)])])
    ∧ (FTree.dir [(".stversions", .dir [("f.txt", .file "data" 77)])]).lookup
        (versionsDir ++ ["f.txt"]) = some (.file "data" 77) :=
  ⟨rfl, rfl,
    (archive_stamps_now (.dir [("f.txt", .file "data" 5)]) ["f.txt"] 77 ⟨false, false⟩ "data" 5
      (.dir [(".stversions", .dir [("f.txt", .file "data" 77)])]) rfl rfl rfl).1⟩

/-- Claim C2: when the rename (move) step fails, Archive returns the error
and the original file is still in the live tree, unchanged, with the archive
location exactly as it was before the call. -/
theorem archive_rename_failure_keeps_file (fs : FTree) (filePath : Path) (now : Int)
    (flt : Faults) (c : String) (m : Int)
    (hfile : fs.lookup filePath = some (.file c m))
    (hrf : flt.renameFault = true) :
    ∃ fs', Archive fs filePath now flt = .err fs'
      ∧ fs'.lookup filePath = some (.file c m)
      ∧ fs'.lookup (versionsDir ++ filePath) = fs.lookup (versionsDir ++ filePath) := by
  cases filePath with
  | nil =>
    cases fs with
    | file c0 m0 =>
      simp only [FTree.lookup, Option.some_inj, FTree.file.injEq] at hfile
      obtain ⟨rfl, rfl⟩ := hfile
      exact ⟨FTree.file c0 m0, rfl, rfl, rfl⟩
    | symlink m0 => simp [FTree.lookup] at hfile
    | dir cs => simp [FTree.lookup] at hfile
  | cons x xs =>
    unfold Archive
    rw [hfile]
    simp only [FTree.isSymlink, Bool.false_eq_true, if_false]
    have hxs : (x :: xs : Path) ≠ [] := by simp
    have hne : versionsDir ++ (x :: xs) ≠ [] := by simp
    rcases hvd : fs.lookup versionsDir with _ | vt
    · rcases hmk : fs.mkdirAll versionsDir with _ | fs1
      · exact ⟨fs, by rfl, hfile, rfl⟩
      · have hfs1 : fs1.lookup (x :: xs) = some (.file c m) :=
          lookup_mkdirAll_file _ fs fs1 _ _ hmk hfile rfl
        have harch1 : fs1.lookup (versionsDir ++ (x :: xs))
            = fs.lookup (versionsDir ++ (x :: xs)) :=
          lookup_mkdirAll_extend versionsDir fs fs1 (x :: xs) hmk hxs
        rcases hmk2 : fs1.mkdirAll (versionsDir ++ (x :: xs)).dropLast with _ | fs2
        · exact ⟨fs1, by dsimp only; rw [hmk2], hfs1, harch1⟩
        · refine ⟨fs2, by dsimp only; rw [hmk2]; dsimp only; rw [hrf]; rfl, ?_, ?_⟩
          · exact lookup_mkdirAll_file _ fs1 fs2 _ _ hmk2 hfs1 rfl
          · have harch2 := lookup_mkdirAll_extend ((versionsDir ++ (x :: xs)).dropLast) fs1 fs2
              [(versionsDir ++ (x :: xs)).getLast hne] hmk2 (by simp)
            rw [List.dropLast_append_getLast hne] at harch2
            exact harch2.trans harch1
    · rcases hmk2 : fs.mkdirAll (versionsDir ++ (x :: xs)).dropLast with _ | fs2
      · exact ⟨fs, by dsimp only; rw [hmk2], hfile, rfl⟩
      · refine ⟨fs2, by dsimp only; rw [hmk2]; dsimp only; rw [hrf]; rfl, ?_, ?_⟩
        · exact lookup_mkdirAll_file _ fs fs2 _ _ hmk2 hfile rfl
        · have harch2 := lookup_mkdirAll_extend ((versionsDir ++ (x :: xs)).dropLast) fs fs2
            [(versionsDir ++ (x :: xs)).getLast hne] hmk2 (by simp)
          rw [List.dropLast_append_getLast hne] at harch2
          exact harch2

theorem archive_rename_failure_keeps_file_witness :
    FTree.lookup (.dir [("a", .dir [("b.txt", .file "hello" 5)])]) ["a", "b.txt"]
      = some (.file "hello" 5)
    ∧ ∃ fs', Archive (.dir [("a", .dir [("b.txt", .file "hello" 5)])]) ["a", "b.txt"] 99
        ⟨true, false⟩ = .err fs'
      ∧ fs'.lookup ["a", "b.txt"] = some (.file "hello" 5)
      ∧ fs'.lookup (versionsDir ++ ["a", "b.txt"])
          = (FTree.dir [("a", .dir [("b.txt", .file "hello" 5)])]).lookup
              (versionsDir ++ ["a", "b.txt"]) :=
  ⟨rfl, archive_rename_failure_keeps_file _ _ 99 ⟨true, false⟩ "hello" 5 rfl rfl⟩

end Trash

namespace Trash

/-- Claim C6: for every path that exists and is a symbolic link, Archive
aborts the process loudly (panics) rather than returning a recoverable
error. -/
theorem archive_symlink_panics (fs : FTree) (p : Path) (now : Int) (flt : Faults) (m : Int)
    (h : fs.lookup p = some (.symlink m)) :
    Archive fs p now flt = .panicked fs := by
  simp [Archive, h, FTree.isSymlink]

theorem archive_symlink_panics_witness :
    FTree.lookup (.dir [("s", .symlink 3)]) ["s"] = some (.symlink 3)
    ∧ Archive (.dir [("s", .symlink 3)]) ["s"] 99 ⟨false, false⟩
        = .panicked (.dir [("s", .symlink 3)]) :=
  ⟨rfl, archive_symlink_panics (.dir [("s", .symlink 3)]) ["s"] 99 ⟨false, false⟩ 3 rfl⟩

/-- Claim C7: for every path that does not exist at archive time, Archive
returns success without modifying the filesystem, and a second call on the
same now-missing path succeeds as well. -/
theorem archive_missing_noop (fs : FTree) (p : Path) (now now' : Int) (flt flt' : Faults)
    (h : fs.lookup p = none) :
    Archive fs p now flt = .ok fs ∧ Archive fs p now' flt' = .ok fs := by
  constructor <;> simp [Archive, h]

theorem archive_missing_noop_witness :
    FTree.lookup (.dir [("a", .file "x" 1)]) ["gone"] = none
    ∧ Archive (.dir [("a", .file "x" 1)]) ["gone"] 7 ⟨false, false⟩ = .ok (.dir [("a", .file "x" 1)])
    ∧ Archive (.dir [("a", .file "x" 1)]) ["gone"] 8 ⟨true, true⟩ = .ok (.dir [("a", .file "x" 1)]) :=
  ⟨rfl, archive_missing_noop (.dir [("a", .file "x" 1)]) ["gone"] 7 8 ⟨false, false⟩ ⟨true, true⟩ rfl⟩

/-- Claim C9: Stop is a single-use close-once primitive: stopping a fresh
instance closes the stop channel and touches nothing else; stopping an
already-stopped instance is the close-of-closed-channel panic. -/
theorem stop_close_once :
    (∀ t : Trashcan, t.stopClosed = false → t.Stop = some ⟨t.cleanoutDays, true⟩)
    ∧ (∀ t : Trashcan, t.stopClosed = true → t.Stop = none) := by
  constructor <;> intro t h <;> simp [Trashcan.Stop, h]

theorem stop_close_once_witness :
    Trashcan.Stop ⟨7, false⟩ = some ⟨7, true⟩ ∧ Trashcan.Stop ⟨7, true⟩ = none :=
  ⟨stop_close_once.1 ⟨7, false⟩ rfl, stop_close_once.2 ⟨7, true⟩ rfl⟩

/-- Claim C5: an absent or unparsable "cleanoutDays" entry yields retention 0
at construction (which always succeeds), and with retention 0 the scheduler
loop never invokes the sweep, leaving the filesystem untouched over any
number of timer expiries. -/
theorem retention_disabled :
    (∀ params, atoi (paramGet params "cleanoutDays") = none →
      (NewTrashcan params).cleanoutDays = 0)
    ∧ (∀ t : Trashcan, t.cleanoutDays = 0 → ∀ ticks fs, serveTicks t ticks fs = fs) := by
  constructor
  · intro params h
    simp [NewTrashcan, h]
  · intro t h ticks
    induction ticks with
    | nil => intro fs; rfl
    | cons a l ih =>
      intro fs
      simp only [serveTicks, serveTick, h]
      simpa using ih fs

theorem retention_disabled_witness :
    atoi (paramGet [("cleanoutDays", "x")] "cleanoutDays") = none
    ∧ (NewTrashcan [("cleanoutDays", "x")]).cleanoutDays = 0
    ∧ (⟨0, false⟩ : Trashcan).cleanoutDays = 0
    ∧ serveTicks ⟨0, false⟩ [5, 6] (.dir [("a", .file "x" (-999))]) = .dir [("a", .file "x" (-999))] :=
  ⟨rfl, retention_disabled.1 [("cleanoutDays", "x")] rfl, rfl,
    retention_disabled.2 ⟨0, false⟩ rfl [5, 6] (.dir [("a", .file "x" (-999))])⟩

/-- Claim C4: in a single sweep, the directory `d` whose only file expires in
that sweep is removed by the end of that same sweep (`d` is the last entered
directory, removed by the final re-check), while the directory `b`, whose
only content is the subdirectory `c` that just became empty, survives that
pass and is reclaimed only by the subsequent sweep. -/
theorem sweep_dir_reclamation (now days m1 m2 : Int)
    (h1 : m1 < cutoffOf now days) (h2 : m2 < cutoffOf now days) :
    (cleanoutArchive now days (.dir [(".stversions", .dir [
        ("b", .dir [("c", .dir [("old1", .file "x" m1)])]),
        ("d", .dir [("old2", .file "y" m2)])])])).lookup [".stversions", "d"] = none
    ∧ (cleanoutArchive now days (.dir [(".stversions", .dir [
        ("b", .dir [("c", .dir [("old1", .file "x" m1)])]),
        ("d", .dir [("old2", .file "y" m2)])])])).lookup [".stversions", "b"] = some (.dir [])
    ∧ (cleanoutArchive now days (cleanoutArchive now days (.dir [(".stversions", .dir [
        ("b", .dir [("c", .dir [("old1", .file "x" m1)])]),
        ("d", .dir [("old2", .file "y" m2)])])]))).lookup [".stversions", "b"] = none := by
  simp [cleanoutArchive, versionsDir, FTree.lookup, FTree.lookupIn, FTree.walkEvents,
    FTree.walkEventsIn, sweepFold, sweepStep, FTree.removeBE, FTree.removeBEIn,
    FTree.isRemovable, dropKey, h1, h2]

theorem sweep_dir_reclamation_witness :
    (0 : Int) < cutoffOf (100 * hourNs) 1
    ∧ (cleanoutArchive (100 * hourNs) 1 (.dir [(".stversions", .dir [
        ("b", .dir [("c", .dir [("old1", .file "x" 0)])]),
        ("d", .dir [("old2", .file "y" 0)])])])).lookup [".stversions", "d"] = none
    ∧ (cleanoutArchive (100 * hourNs) 1 (.dir [(".stversions", .dir [
        ("b", .dir [("c", .dir [("old1", .file "x" 0)])]),
        ("d", .dir [("old2", .file "y" 0)])])])).lookup [".stversions", "b"] = some (.dir [])
    ∧ (cleanoutArchive (100 * hourNs) 1 (cleanoutArchive (100 * hourNs) 1 (.dir [(".stversions", .dir [
        ("b", .dir [("c", .dir [("old1", .file "x" 0)])]),
        ("d", .dir [("old2", .file "y" 0)])])]))).lookup [".stversions", "b"] = none :=
  ⟨by decide, sweep_dir_reclamation (100 * hourNs) 1 0 0 (by decide) (by decide)⟩

/-- Claim C10: during the sweep, the surviving file `p/zz`, visited after the
walk has descended into the subdirectory `p/sub`, is credited to that
subdirectory (the most recently entered directory), so `sub` ends the walk as
the current directory with one counted survivor and is not removed even
though it is empty, while its actual parent `p` was checked with a zero
counter. -/
theorem sweep_survivor_credited (now days mOld mKeep : Int)
    (h1 : mOld < cutoffOf now days) (h2 : ¬ mKeep < cutoffOf now days) :
    (cleanoutArchive now days (.dir [(".stversions", .dir [("p", .dir [
        ("sub", .dir [("old", .file "o" mOld)]),
        ("zz", .file "keep" mKeep)])])])).lookup [".stversions", "p", "sub"] = some (.dir [])
    ∧ (cleanoutArchive now days (.dir [(".stversions", .dir [("p", .dir [
        ("sub", .dir [("old", .file "o" mOld)]),
        ("zz", .file "keep" mKeep)])])])).lookup [".stversions", "p", "sub", "old"] = none
    ∧ (cleanoutArchive now days (.dir [(".stversions", .dir [("p", .dir [
        ("sub", .dir [("old", .file "o" mOld)]),
        ("zz", .file "keep" mKeep)])])])).lookup [".stversions", "p", "zz"] = some (.file "keep" mKeep)
    ∧ (sweepFold (cutoffOf now days)
        ⟨.dir [(".stversions", .dir [("p", .dir [
          ("sub", .dir [("old", .file "o" mOld)]),
          ("zz", .file "keep" mKeep)])])], none, 0⟩
        ((FTree.dir [("p", .dir [
          ("sub", .dir [("old", .file "o" mOld)]),
          ("zz", .file "keep" mKeep)])]).walkEvents versionsDir)).currentDir
        = some [".stversions", "p", "sub"]
    ∧ (sweepFold (cutoffOf now days)
        ⟨.dir [(".stversions", .dir [("p", .dir [
          ("sub", .dir [("old", .file "o" mOld)]),
          ("zz", .file "keep" mKeep)])])], none, 0⟩
        ((FTree.dir [("p", .dir [
          ("sub", .dir [("old", .file "o" mOld)]),
          ("zz", .file "keep" mKeep)])]).walkEvents versionsDir)).filesInDir = 1 := by
  simp [cleanoutArchive, versionsDir, FTree.lookup, FTree.lookupIn, FTree.walkEvents,
    FTree.walkEventsIn, sweepFold, sweepStep, FTree.removeBE, FTree.removeBEIn,
    FTree.isRemovable, dropKey, h1, h2]

theorem sweep_survivor_credited_witness :
    ((0 : Int) < cutoffOf (100 * hourNs) 1 ∧ ¬ (200 * hourNs : Int) < cutoffOf (100 * hourNs) 1)
    ∧ (cleanoutArchive (100 * hourNs) 1 (.dir [(".stversions", .dir [("p", .dir [
        ("sub", .dir [("old", .file "o" 0)]),
        ("zz", .file "keep" (200 * hourNs))])])])).lookup [".stversions", "p", "sub"] = some (.dir []) := by
  refine ⟨⟨by decide, by decide⟩, ?_⟩
  exact (sweep_survivor_credited (100 * hourNs) 1 0 (200 * hourNs) (by decide) (by decide)).1

end Trash

namespace Trash

theorem wfIn_parts {k : String} {c : FTree} {rest : List (String × FTree)}
    (h : FTree.wfIn ((k, c) :: rest) = true) :
    keyAbsent k rest = true ∧ FTree.wf c = true ∧ FTree.wfIn rest = true := by
  simp only [FTree.wfIn, Bool.and_eq_true] at h
  exact ⟨h.1.1, h.1.2, h.2⟩

theorem wf_lookup : ∀ (p : Path) (t u : FTree),
    FTree.wf t = true → FTree.lookup t p = some u → FTree.wf u = true := by
  intro p
  induction p with
  | nil =>
    intro t u hwf h
    cases t <;> simp_all [FTree.lookup]
  | cons n p ih =>
    intro t u hwf h
    cases t with
    | file c0 m0 => simp [FTree.lookup] at h
    | symlink m0 => simp [FTree.lookup] at h
    | dir cs =>
      simp only [FTree.lookup] at h
      simp only [FTree.wf] at hwf
      induction cs with
      | nil => simp [FTree.lookupIn] at h
      | cons e rest ihcs =>
        obtain ⟨k, c0⟩ := e
        obtain ⟨_, hwc, hwrest⟩ := wfIn_parts hwf
        by_cases hkn : k = n
        · simp only [FTree.lookupIn, if_pos hkn] at h
          exact ih c0 u hwc h
        · simp only [FTree.lookupIn, if_neg hkn] at h
          exact ihcs hwrest h

mutual

theorem walkEvents_dir_sound : ∀ (t : FTree) (pre d : Path),
    FTree.wf t = true → WalkEvent.dirEv d ∈ FTree.walkEvents t pre →
    ∃ s cs2, d = pre ++ s ∧ FTree.lookup t s = some (.dir cs2)
  | .file c m, pre, d, hwf, hmem => by simp [FTree.walkEvents] at hmem
  | .symlink m, pre, d, hwf, hmem => by simp [FTree.walkEvents] at hmem
  | .dir cs, pre, d, hwf, hmem => by
      simp only [FTree.walkEvents, List.mem_cons] at hmem
      rcases hmem with h | h
      · refine ⟨[], cs, ?_, rfl⟩
        have : d = pre := by
          injection h
        simp [this]
      · obtain ⟨k, s, cs2, hd, hlk⟩ :=
          walkEventsIn_dir_sound cs pre d (by simpa [FTree.wf] using hwf) h
        exact ⟨k :: s, cs2, hd, hlk⟩

theorem walkEventsIn_dir_sound : ∀ (cs : List (String × FTree)) (pre d : Path),
    FTree.wfIn cs = true → WalkEvent.dirEv d ∈ FTree.walkEventsIn cs pre →
    ∃ k s cs2, d = pre ++ (k :: s) ∧ FTree.lookupIn cs k s = some (.dir cs2)
  | [], pre, d, hwf, hmem => by simp [FTree.walkEventsIn] at hmem
  | (k0, c0) :: rest, pre, d, hwf, hmem => by
      obtain ⟨habs, hwc, hwrest⟩ := wfIn_parts hwf
      simp only [FTree.walkEventsIn, List.mem_append] at hmem
      rcases hmem with h | h
      · obtain ⟨s, cs2, hd, hlk⟩ := walkEvents_dir_sound c0 (pre ++ [k0]) d hwc h
        refine ⟨k0, s, cs2, ?_, ?_⟩
        · rw [hd, List.append_assoc]
          rfl
        · simp [FTree.lookupIn, hlk]
      · obtain ⟨k, s, cs2, hd, hlk⟩ := walkEventsIn_dir_sound rest pre d hwrest h
        have hkk0 : ¬ k0 = k := by
          intro hc
          subst hc
          rw [lookupIn_some_not_absent hlk] at habs
          exact Bool.false_ne_true habs
        exact ⟨k, s, cs2, hd, by simp [FTree.lookupIn, hkk0, hlk]⟩

end

mutual

theorem walkEvents_file_sound : ∀ (t : FTree) (pre p : Path) (mt : Int),
    FTree.wf t = true → WalkEvent.fileEv p mt ∈ FTree.walkEvents t pre →
    ∃ s node, p = pre ++ s ∧ FTree.lookup t s = some node
      ∧ FTree.isDir node = false ∧ FTree.mtimeOf node = mt
  | .file c m, pre, p, mt, hwf, hmem => by
      simp only [FTree.walkEvents, List.mem_singleton, WalkEvent.fileEv.injEq] at hmem
      exact ⟨[], .file c m, by simp [hmem.1], rfl, rfl, by simp [FTree.mtimeOf, hmem.2]⟩
  | .symlink m, pre, p, mt, hwf, hmem => by
      simp only [FTree.walkEvents, List.mem_singleton, WalkEvent.fileEv.injEq] at hmem
      exact ⟨[], .symlink m, by simp [hmem.1], rfl, rfl, by simp [FTree.mtimeOf, hmem.2]⟩
  | .dir cs, pre, p, mt, hwf, hmem => by
      simp only [FTree.walkEvents, List.mem_cons] at hmem
      rcases hmem with h | h
      · exact absurd h (by simp)
      · obtain ⟨k, s, node, hd, hlk, hnd, hmt⟩ :=
          walkEventsIn_file_sound cs pre p mt (by simpa [FTree.wf] using hwf) h
        exact ⟨k :: s, node, hd, hlk, hnd, hmt⟩

theorem walkEventsIn_file_sound : ∀ (cs : List (String × FTree)) (pre p : Path) (mt : Int),
    FTree.wfIn cs = true → WalkEvent.fileEv p mt ∈ FTree.walkEventsIn cs pre →
    ∃ k s node, p = pre ++ (k :: s) ∧ FTree.lookupIn cs k s = some node
      ∧ FTree.isDir node = false ∧ FTree.mtimeOf node = mt
  | [], pre, p, mt, hwf, hmem => by simp [FTree.walkEventsIn] at hmem
  | (k0, c0) :: rest, pre, p, mt, hwf, hmem => by
      obtain ⟨habs, hwc, hwrest⟩ := wfIn_parts hwf
      simp only [FTree.walkEventsIn, List.mem_append] at hmem
      rcases hmem with h | h
      · obtain ⟨s, node, hd, hlk, hnd, hmt⟩ := walkEvents_file_sound c0 (pre ++ [k0]) p mt hwc h
        refine ⟨k0, s, node, ?_, ?_, hnd, hmt⟩
        · rw [hd, List.append_assoc]
          rfl
        · simp [FTree.lookupIn, hlk]
      · obtain ⟨k, s, node, hd, hlk, hnd, hmt⟩ := walkEventsIn_file_sound rest pre p mt hwrest h
        have hkk0 : ¬ k0 = k := by
          intro hc
          subst hc
          rw [lookupIn_some_not_absent hlk] at habs
          exact Bool.false_ne_true habs
        exact ⟨k, s, node, hd, by simp [FTree.lookupIn, hkk0, hlk], hnd, hmt⟩

end

theorem walkEvents_file_complete : ∀ (s : Path) (t : FTree) (pre : Path) (c : String) (m : Int),
    FTree.lookup t s = some (.file c m) →
    WalkEvent.fileEv (pre ++ s) m ∈ FTree.walkEvents t pre := by
  intro s
  induction s with
  | nil =>
    intro t pre c m h
    cases t <;> simp_all [FTree.lookup, FTree.walkEvents]
  | cons n s' ih =>
    intro t pre c m h
    cases t with
    | file c0 m0 => simp [FTree.lookup] at h
    | symlink m0 => simp [FTree.lookup] at h
    | dir cs =>
      simp only [FTree.lookup] at h
      simp only [FTree.walkEvents, List.mem_cons]
      right
      induction cs with
      | nil => simp [FTree.lookupIn] at h
      | cons e rest ihcs =>
        obtain ⟨k, c0⟩ := e
        simp only [FTree.walkEventsIn, List.mem_append]
        by_cases hkn : k = n
        · left
          subst hkn
          have hm := ih c0 (pre ++ [k]) c m (by simpa [FTree.lookupIn] using h)
          simpa [List.append_assoc] using hm
        · right
          exact ihcs (by simpa [FTree.lookupIn, hkn] using h)

end Trash

namespace Trash

theorem sweepFold_append (ct : Int) : ∀ (evs1 evs2 : List WalkEvent) (st : SweepState),
    sweepFold ct st (evs1 ++ evs2) = sweepFold ct (sweepFold ct st evs1) evs2 := by
  intro evs1
  induction evs1 with
  | nil => intro evs2 st; rfl
  | cons ev evs ih =>
    intro evs2 st
    simp only [List.cons_append, sweepFold]
    exact ih evs2 _

/-- After any best-effort Remove, a file entry is either intact or gone. -/
theorem removeBE_file_or_none (fs : FTree) (q P : Path) (c : String) (m : Int) (hP : P ≠ [])
    (h : fs.lookup P = some (.file c m) ∨ fs.lookup P = none) :
    (fs.removeBE q).lookup P = some (.file c m) ∨ (fs.removeBE q).lookup P = none := by
  rcases h with h | h
  · by_cases hq : q = P
    · subst hq
      exact Or.inr (lookup_removeBE_self q fs _ hP h rfl)
    · exact Or.inl (lookup_removeBE_other q fs P c m h hq)
  · exact Or.inr (lookup_removeBE_none q fs P h)

theorem sweepStep_file_or_none (ct : Int) (P : Path) (c : String) (m : Int) (hP : P ≠ [])
    (st : SweepState) (ev : WalkEvent)
    (h : st.fs.lookup P = some (.file c m) ∨ st.fs.lookup P = none) :
    (sweepStep ct st ev).fs.lookup P = some (.file c m)
    ∨ (sweepStep ct st ev).fs.lookup P = none := by
  cases ev with
  | dirEv d =>
    simp only [sweepStep]
    rcases hcd : st.currentDir with _ | d0
    · exact h
    · by_cases hz : st.filesInDir = 0
      · simp only [if_pos hz]
        exact removeBE_file_or_none st.fs d0 P c m hP h
      · simp only [if_neg hz]
        exact h
  | fileEv p mt =>
    simp only [sweepStep]
    by_cases hlt : mt < ct
    · simp only [if_pos hlt]
      exact removeBE_file_or_none st.fs p P c m hP h
    · simp only [if_neg hlt]
      exact h

theorem sweepFold_file_or_none (ct : Int) (P : Path) (c : String) (m : Int) (hP : P ≠ []) :
    ∀ (evs : List WalkEvent) (st : SweepState),
    st.fs.lookup P = some (.file c m) ∨ st.fs.lookup P = none →
    (sweepFold ct st evs).fs.lookup P = some (.file c m)
    ∨ (sweepFold ct st evs).fs.lookup P = none := by
  intro evs
  induction evs with
  | nil => intro st h; exact h
  | cons ev evs ih =>
    intro st h
    exact ih _ (sweepStep_file_or_none ct P c m hP st ev h)

theorem sweepStep_none (ct : Int) (P : Path) (st : SweepState) (ev : WalkEvent)
    (h : st.fs.lookup P = none) : (sweepStep ct st ev).fs.lookup P = none := by
  cases ev with
  | dirEv d =>
    simp only [sweepStep]
    rcases hcd : st.currentDir with _ | d0
    · exact h
    · by_cases hz : st.filesInDir = 0
      · simp only [if_pos hz]
        exact lookup_removeBE_none d0 st.fs P h
      · simp only [if_neg hz]
        exact h
  | fileEv p mt =>
    simp only [sweepStep]
    by_cases hlt : mt < ct
    · simp only [if_pos hlt]
      exact lookup_removeBE_none p st.fs P h
    · simp only [if_neg hlt]
      exact h

theorem sweepFold_none (ct : Int) (P : Path) :
    ∀ (evs : List WalkEvent) (st : SweepState), st.fs.lookup P = none →
    (sweepFold ct st evs).fs.lookup P = none := by
  intro evs
  induction evs with
  | nil => intro st h; exact h
  | cons ev evs ih =>
    intro st h
    exact ih _ (sweepStep_none ct P st ev h)

/-- Through events that never target `P` for removal, the sweep keeps the file
at `P` and never makes `P` the current directory. -/
theorem sweepFold_keep (ct : Int) (P : Path) (c : String) (m : Int) :
    ∀ (evs : List WalkEvent) (st : SweepState),
    (∀ d, WalkEvent.dirEv d ∈ evs → d ≠ P) →
    (∀ mt, WalkEvent.fileEv P mt ∈ evs → ¬ mt < ct) →
    st.fs.lookup P = some (.file c m) →
    (∀ d, st.currentDir = some d → d ≠ P) →
    ((sweepFold ct st evs).fs.lookup P = some (.file c m)
     ∧ ∀ d, (sweepFold ct st evs).currentDir = some d → d ≠ P) := by
  intro evs
  induction evs with
  | nil => intro st _ _ h hcd; exact ⟨h, hcd⟩
  | cons ev evs ih =>
    intro st hdir hfile h hcd
    refine ih _ (fun d hd => hdir d (List.mem_cons_of_mem _ hd))
      (fun mt hmt => hfile mt (List.mem_cons_of_mem _ hmt)) ?_ ?_
    · cases ev with
      | dirEv d =>
        simp only [sweepStep]
        rcases hc : st.currentDir with _ | d0
        · exact h
        · by_cases hz : st.filesInDir = 0
          · simp only [if_pos hz]
            exact lookup_removeBE_other d0 st.fs P c m h (hcd d0 hc)
          · simp only [if_neg hz]
            exact h
      | fileEv p mt =>
        simp only [sweepStep]
        by_cases hlt : mt < ct
        · simp only [if_pos hlt]
          refine lookup_removeBE_other p st.fs P c m h ?_
          intro hc
          subst hc
          exact (hfile mt (List.mem_cons_self _ _)) hlt
        · simp only [if_neg hlt]
          exact h
    · cases ev with
      | dirEv d =>
        intro d' hd'
        simp only [sweepStep, Option.some_inj] at hd'
        subst hd'
        exact hdir d (List.mem_cons_self _ _)
      | fileEv p mt =>
        intro d' hd'
        simp only [sweepStep] at hd'
        by_cases hlt : mt < ct
        · rw [if_pos hlt] at hd'
          exact hcd d' hd'
        · rw [if_neg hlt] at hd'
          exact hcd d' hd'

end Trash

namespace Trash

/-- Claim C3: one sweep of `cleanoutArchive`, with cutoff `now` minus
`cleanoutDays` times 24h, deletes a file in the versions tree exactly when
its modification time is strictly before the cutoff; a file at or past the
cutoff is kept unchanged (equality counts as not yet expired). -/
theorem cleanout_retention (fs : FTree) (now days : Int) (q : Path) (c : String) (m : Int)
    (hwf : FTree.wf fs = true)
    (hfile : fs.lookup (versionsDir ++ q) = some (.file c m)) :
    (cleanoutArchive now days fs).lookup (versionsDir ++ q) =
      if m < cutoffOf now days then none else some (.file c m) := by
  have hP : (versionsDir ++ q : Path) ≠ [] := by simp [versionsDir]
  have hb : (fs.lookup versionsDir).bind (fun u => u.lookup q) = some (.file c m) := by
    rw [← lookup_append]
    exact hfile
  rcases hvd : fs.lookup versionsDir with _ | vt
  · rw [hvd] at hb
    simp at hb
  · rw [hvd] at hb
    simp only [Option.some_bind] at hb
    have hwvt : FTree.wf vt = true := wf_lookup versionsDir fs vt hwf hvd
    unfold cleanoutArchive
    rw [hvd]
    dsimp only
    by_cases hlt : m < cutoffOf now days
    · rw [if_pos hlt]
      have hmem : WalkEvent.fileEv (versionsDir ++ q) m ∈ vt.walkEvents versionsDir :=
        walkEvents_file_complete q vt versionsDir c m hb
      obtain ⟨E1, E2, hE⟩ := List.append_of_mem hmem
      rw [hE, sweepFold_append]
      simp only [sweepFold]
      have hD := sweepFold_file_or_none (cutoffOf now days) (versionsDir ++ q) c m hP E1
        ⟨fs, none, 0⟩ (Or.inl hfile)
      have hstep : (sweepStep (cutoffOf now days)
          (sweepFold (cutoffOf now days) ⟨fs, none, 0⟩ E1)
          (WalkEvent.fileEv (versionsDir ++ q) m)).fs.lookup (versionsDir ++ q) = none := by
        simp only [sweepStep, if_pos hlt]
        rcases hD with h | h
        · exact lookup_removeBE_self _ _ _ hP h rfl
        · exact lookup_removeBE_none _ _ _ h
      have hafter : (sweepFold (cutoffOf now days)
          (sweepStep (cutoffOf now days) (sweepFold (cutoffOf now days) ⟨fs, none, 0⟩ E1)
            (WalkEvent.fileEv (versionsDir ++ q) m))
          E2).fs.lookup (versionsDir ++ q) = none :=
        sweepFold_none _ _ E2 _ hstep
      rcases hcd : (sweepFold (cutoffOf now days)
          (sweepStep (cutoffOf now days) (sweepFold (cutoffOf now days) ⟨fs, none, 0⟩ E1)
            (WalkEvent.fileEv (versionsDir ++ q) m))
          E2).currentDir with _ | d
      · exact hafter
      · dsimp only
        by_cases hz : (sweepFold (cutoffOf now days)
            (sweepStep (cutoffOf now days) (sweepFold (cutoffOf now days) ⟨fs, none, 0⟩ E1)
              (WalkEvent.fileEv (versionsDir ++ q) m))
            E2).filesInDir = 0
        · rw [if_pos hz]
          exact lookup_removeBE_none d _ _ hafter
        · rw [if_neg hz]
          exact hafter
    · rw [if_neg hlt]
      have hdirs : ∀ d, WalkEvent.dirEv d ∈ vt.walkEvents versionsDir →
          d ≠ versionsDir ++ q := by
        intro d hd hc
        subst hc
        obtain ⟨s, cs2, hd2, hlk⟩ := walkEvents_dir_sound vt versionsDir _ hwvt hd
        have hsq : q = s := List.append_cancel_left hd2
        rw [← hsq] at hlk
        rw [hlk] at hb
        simp at hb
      have hfiles : ∀ mt, WalkEvent.fileEv (versionsDir ++ q) mt ∈ vt.walkEvents versionsDir →
          ¬ mt < cutoffOf now days := by
        intro mt hmt
        obtain ⟨s, node, hd2, hlk, hnd, hmtime⟩ :=
          walkEvents_file_sound vt versionsDir _ mt hwvt hmt
        have hsq : q = s := List.append_cancel_left hd2
        rw [← hsq] at hlk
        have hnode : node = FTree.file c m := Option.some_inj.mp (hlk.symm.trans hb)
        subst hnode
        simp only [FTree.mtimeOf] at hmtime
        rw [← hmtime]
        exact hlt
      have hK := sweepFold_keep (cutoffOf now days) (versionsDir ++ q) c m
        (vt.walkEvents versionsDir) ⟨fs, none, 0⟩ hdirs hfiles hfile
        (by intro d hd; simp at hd)
      rcases hcd : (sweepFold (cutoffOf now days) ⟨fs, none, 0⟩
          (vt.walkEvents versionsDir)).currentDir with _ | d
      · exact hK.1
      · dsimp only
        by_cases hz : (sweepFold (cutoffOf now days) ⟨fs, none, 0⟩
            (vt.walkEvents versionsDir)).filesInDir = 0
        · rw [if_pos hz]
          exact lookup_removeBE_other d _ _ c m hK.1 (hK.2 d hcd)
        · rw [if_neg hz]
          exact hK.1

end Trash

namespace Trash

theorem cleanout_retention_witness :
    FTree.wf (.dir [(".stversions", .dir [("old", .file "a" 0), ("new", .file "b" (76 * hourNs))])])
      = true
    ∧ FTree.lookup (.dir [(".stversions",
        .dir [("old", .file "a" 0), ("new", .file "b" (76 * hourNs))])])
        (versionsDir ++ ["old"]) = some (.file "a" 0)
    ∧ FTree.lookup (.dir [(".stversions",
        .dir [("old", .file "a" 0), ("new", .file "b" (76 * hourNs))])])
        (versionsDir ++ ["new"]) = some (.file "b" (76 * hourNs))
    ∧ (cleanoutArchive (100 * hourNs) 1 (.dir [(".stversions",
        .dir [("old", .file "a" 0), ("new", .file "b" (76 * hourNs))])])).lookup
        (versionsDir ++ ["old"])
        = (if (0 : Int) < cutoffOf (100 * hourNs) 1 then none else some (.file "a" 0))
    ∧ (cleanoutArchive (100 * hourNs) 1 (.dir [(".stversions",
        .dir [("old", .file "a" 0), ("new", .file "b" (76 * hourNs))])])).lookup
        (versionsDir ++ ["new"])
        = (if (76 * hourNs : Int) < cutoffOf (100 * hourNs) 1 then none
           else some (.file "b" (76 * hourNs))) :=
  ⟨rfl, rfl, rfl,
    cleanout_retention (.dir [(".stversions",
      .dir [("old", .file "a" 0), ("new", .file "b" (76 * hourNs))])])
      (100 * hourNs) 1 ["old"] "a" 0 rfl rfl,
    cleanout_retention (.dir [(".stversions",
      .dir [("old", .file "a" 0), ("new", .file "b" (76 * hourNs))])])
      (100 * hourNs) 1 ["new"] "b" (76 * hourNs) rfl rfl⟩

end Trash
